import Mathlib

/-!
Verification of the brizzle field-definition-language pipeline:
the schema mutation engine (`modelExistsInSchema`, `removeModelFromSchemaContent`),
the field parser and validator (`parseFields`, `validateFieldDefinition`),
the dialect type maps (`drizzleType`) and the import merger.
Strings are modelled as `List Char`; every function is a direct shallow
embedding of the TypeScript source.
-/

namespace Brizzle

/-- Left brace character (named to keep braces out of string literals). -/
def lbrace : Char := '\x7b'

/-- Right brace character. -/
def rbrace : Char := '\x7d'

/-- JavaScript `\s` whitespace class (ASCII part, sufficient for this code base). -/
def isJsSpace (c : Char) : Bool :=
  c = ' ' || c = '\t' || c = '\n' || c = '\r' || c = '\x0b' || c = '\x0c'

/-- JavaScript `\w` word-character class: `[A-Za-z0-9_]`. -/
def isWordChar (c : Char) : Bool :=
  c.isAlphanum || c = '_'

/-- JavaScript `String.prototype.split` with a single-character separator.
`splitCh sep s` never returns the empty list. -/
def splitCh (sep : Char) : List Char → List (List Char)
  | [] => [[]]
  | c :: rest =>
    if c = sep then [] :: splitCh sep rest
    else
      match splitCh sep rest with
      | [] => [[c]]
      | l :: ls => (c :: l) :: ls

/-- `lines.join("\n")`. -/
def joinNl : List (List Char) → List Char
  | [] => []
  | [l] => l
  | l :: l2 :: ls => l ++ '\n' :: joinNl (l2 :: ls)

/-- Tail part of `joinNl`: every further line is preceded by a newline. -/
def joinTail : List (List Char) → List Char
  | [] => []
  | l :: ls => '\n' :: (l ++ joinTail ls)

/-! ### Deterministic matchers for the two regular expressions of the engine

The two patterns used by the source,
`(?:sqliteTable|pgTable|mysqlTable)\s*\(\s*["']NAME["']` (unanchored, in
`modelExistsInSchema`) and
`^export\s+const\s+\w+\s*=\s*(?:sqliteTable|pgTable|mysqlTable)\s*\(\s*["']NAME["']`
(anchored, in `removeModelFromSchemaContent`), are backtracking-free: every
greedy class (`\s*`, `\s+`, `\w+`) is followed by a literal outside the class,
so leftmost matching coincides with the deterministic maximal-munch parse
implemented here.  `NAME` is passed through `escapeRegExp`, so it matches
literally. -/

/-- Consume the literal `lit` from the front of `s`, returning the rest. -/
def dropLit : List Char → List Char → Option (List Char)
  | [], s => some s
  | _ :: _, [] => none
  | c :: l, d :: s => if c = d then dropLit l s else none

/-- `\s*`: greedily consume whitespace. -/
def dropSp (s : List Char) : List Char := s.dropWhile isJsSpace

/-- `\s+`: consume at least one whitespace character, then greedily the rest. -/
def dropSp1 : List Char → Option (List Char)
  | [] => none
  | c :: rest => if isJsSpace c then some (rest.dropWhile isJsSpace) else none

/-- `\w+`: consume at least one word character, then greedily the rest. -/
def dropWord1 : List Char → Option (List Char)
  | [] => none
  | c :: rest => if isWordChar c then some (rest.dropWhile isWordChar) else none

/-- The `["']` character class. -/
def isQuote (c : Char) : Bool := c = '"' || c = '\x27'

/-- Consume one quote character. -/
def dropQuote : List Char → Option (List Char)
  | [] => none
  | c :: rest => if isQuote c then some rest else none

/-- The alternation `(?:sqliteTable|pgTable|mysqlTable)`; the three names are
distinguished by their first character. -/
def matchTF (s : List Char) : Option (List Char) :=
  match dropLit "sqliteTable".data s with
  | some r => some r
  | none =>
    match dropLit "pgTable".data s with
    | some r => some r
    | none => dropLit "mysqlTable".data s

/-- Matcher for `(?:sqliteTable|pgTable|mysqlTable)\s*\(\s*["']NAME["']`
anchored at the front of `s`; returns the unread rest on success. -/
def matchCoreP (tableName s : List Char) : Option (List Char) :=
  (matchTF s).bind fun s1 =>
  (dropLit ['('] (dropSp s1)).bind fun s2 =>
  (dropQuote (dropSp s2)).bind fun s3 =>
  (dropLit tableName s3).bind fun s4 =>
  dropQuote s4

/-- Unanchored test of `matchCoreP` (the `RegExp.test` of the source):
does the pattern match at some position of `s`? -/
def existsCore (tableName : List Char) : List Char → Bool
  | [] => (matchCoreP tableName []).isSome
  | c :: rest => (matchCoreP tableName (c :: rest)).isSome || existsCore tableName rest

/-- Shallow embedding of `modelExistsInSchema` (src/unnamed/part_006): the file
read is modelled by passing the schema file content explicitly; the function
then tests the unanchored pattern
`(?:sqliteTable|pgTable|mysqlTable)\s*\(\s*["']tableName["']` on the content. -/
def modelExistsInSchema (content tableName : List Char) : Bool :=
  existsCore tableName content

/-- Test of the anchored block-header pattern
`^export\s+const\s+\w+\s*=\s*(?:sqliteTable|pgTable|mysqlTable)\s*\(\s*["']NAME["']`
against one line (the `tablePattern.test(lines[i])` of the source). -/
def headerMatch (tableName line : List Char) : Bool :=
  ((dropLit "export".data line).bind fun s1 =>
   (dropSp1 s1).bind fun s2 =>
   (dropLit "const".data s2).bind fun s3 =>
   (dropSp1 s3).bind fun s4 =>
   (dropWord1 s4).bind fun s5 =>
   (dropLit ['='] (dropSp s5)).bind fun s6 =>
   matchCoreP tableName (dropSp s6)).isSome

/-! ### The brace-depth scan of `removeModelFromSchemaContent` -/

/-- One line of the brace scan: each left brace increments `braceCount` and
sets `foundOpenBrace`, each right brace decrements `braceCount`. -/
def braceLine (cnt : Int) (fo : Bool) : List Char → Int × Bool
  | [] => (cnt, fo)
  | c :: cs =>
    if c = lbrace then braceLine (cnt + 1) true cs
    else if c = rbrace then braceLine (cnt - 1) fo cs
    else braceLine cnt fo cs

/-- Scan lines accumulating brace state; return the offset of the first line
after which `foundOpenBrace && braceCount == 0` holds. -/
def scanEnd (cnt : Int) (fo : Bool) : List (List Char) → Option Nat
  | [] => none
  | l :: rest =>
    let p := braceLine cnt fo l
    if p.2 && p.1 = 0 then some 0
    else (scanEnd p.1 p.2 rest).map (· + 1)

/-- Index of the first line matching the block-header pattern (the search for
`startIdx` in the source). -/
def findStart (tableName : List Char) : List (List Char) → Option Nat
  | [] => none
  | l :: ls =>
    if headerMatch tableName l then some 0
    else (findStart tableName ls).map (· + 1)

/-- The state machine of the source's removal loop: locate the block for
`tableName` and return `(startIdx, endIdx)` when the scan reaches its
terminal Found state. -/
def findBlock (tableName : List Char) (lines : List (List Char)) : Option (Nat × Nat) :=
  (findStart tableName lines).bind fun s =>
  (scanEnd 0 false (lines.drop s)).map fun r => (s, s + r)

/-- Worker for the trailing `.replace(/\n{3,}/g, "\n\n")`: `k` newlines are
pending; a maximal run of `k` newlines is emitted as `min k 2` newlines. -/
def collapseGo : Nat → List Char → List Char
  | k, [] => List.replicate (min k 2) '\n'
  | k, c :: rest =>
    if c = '\n' then collapseGo (k + 1) rest
    else List.replicate (min k 2) '\n' ++ c :: collapseGo 0 rest

/-- The source's `content.replace(/\n{3,}/g, "\n\n")`: every maximal run of
three or more newlines becomes exactly two newlines. -/
def collapseNewlines (s : List Char) : List Char := collapseGo 0 s

/-- Shallow embedding of `removeModelFromSchemaContent` (src/unnamed/part_006):
split into lines, run the header search plus brace-depth scan, and on success
splice out lines `[startIdx, endIdx]` and collapse newline runs; otherwise
return the content unchanged. -/
def removeModelFromSchemaContent (content tableName : List Char) : List Char :=
  let lines := splitCh '\n' content
  match findBlock tableName lines with
  | none => content
  | some (s, e) => collapseNewlines (joinNl (lines.take s ++ lines.drop (e + 1)))

/-! ### Field model, validator and parser -/

/-- The database dialect (`Dialect` in src/src/lib/types): a closed
three-member union. -/
inductive Dialect where
  | sqlite
  | postgresql
  | mysql
deriving DecidableEq, Repr

/-- The parsed field model (`Field` in src/src/lib/types) as produced by
`parseFields`; absent object keys are modelled as `none`. -/
structure Field where
  name : List Char
  type : List Char
  isReference : Bool
  isEnum : Bool
  referenceTo : Option (List Char)
  enumValues : Option (List (List Char))
  nullable : Bool
  unique : Bool
deriving DecidableEq, Repr

/-- The error kinds thrown by `validateFieldDefinition`
(src/src/generators/actions.ts), one per distinct `throw` site. -/
inductive FieldError where
  | emptyName
  | invalidName
  | reservedName
  | invalidType
  | missingEnumValues
  | emptyEnumValue
  | invalidEnumValue
  | duplicateEnumValue
deriving DecidableEq, Repr

instance {ε α : Type} [DecidableEq ε] [DecidableEq α] : DecidableEq (Except ε α)
  | Except.ok a, Except.ok b =>
    if h : a = b then isTrue (by rw [h])
    else isFalse (by intro he; cases he; exact h rfl)
  | Except.ok _, Except.error _ => isFalse (by intro h; cases h)
  | Except.error _, Except.ok _ => isFalse (by intro h; cases h)
  | Except.error e, Except.error f =>
    if h : e = f then isTrue (by rw [h])
    else isFalse (by intro he; cases he; exact h rfl)

/-- `SQL_RESERVED_WORDS` of src/src/generators/actions.ts. -/
def SQL_RESERVED_WORDS : List (List Char) :=
  ["select", "from", "where", "insert", "update", "delete", "drop", "create",
   "alter", "index", "table", "column", "database", "schema", "and", "or",
   "not", "null", "true", "false", "order", "by", "group", "having", "limit",
   "offset", "join", "left", "right", "inner", "outer", "on", "as", "in",
   "between", "like", "is", "case", "when", "then", "else", "end", "exists",
   "distinct", "all", "any", "union", "intersect", "except", "primary",
   "foreign", "key", "references", "unique", "default", "check", "constraint",
   "int", "integer", "float", "double", "decimal", "numeric", "boolean",
   "bool", "text", "varchar", "char", "date", "time", "timestamp",
   "datetime"].map String.data

/-- `VALID_FIELD_TYPES` of src/src/lib/drizzle/columns.ts. -/
def VALID_FIELD_TYPES : List (List Char) :=
  ["string", "text", "integer", "int", "bigint", "boolean", "bool",
   "datetime", "timestamp", "date", "float", "decimal", "json",
   "uuid"].map String.data

/-- JavaScript `name.endsWith("?")`. -/
def endsQ (s : List Char) : Bool := s.getLast? = some '?'

/-- Strip one trailing `?` when present (`name.slice(0, -1)` guarded by
`endsWith("?")`). -/
def stripQ (s : List Char) : List Char := if endsQ s then s.dropLast else s

/-- The name rule `^[a-z][a-zA-Z0-9]*$`. -/
def nameOk : List Char → Bool
  | [] => false
  | c :: cs => c.isLower && cs.all Char.isAlphanum

/-- The enum-value rule `^[a-zA-Z][a-zA-Z0-9_-]*$`. -/
def enumValueOk : List Char → Bool
  | [] => false
  | c :: cs => c.isAlpha && cs.all fun d => d.isAlphanum || d = '_' || d = '-'

/-- The per-value loop of the enum section: an empty value and a value
failing the character rule throw, in that order. -/
def checkEnumValues : List (List Char) → Except FieldError Unit
  | [] => Except.ok ()
  | v :: vs =>
    if v = [] then Except.error FieldError.emptyEnumValue
    else if !enumValueOk v then Except.error FieldError.invalidEnumValue
    else checkEnumValues vs

/-- Shallow embedding of `validateFieldDefinition`
(src/src/generators/actions.ts): split on `:`, default the type to
`string`, strip one trailing `?` from name and type, then run the name,
type-vocabulary and enum checks in source order.  A thrown `Error` is an
`Except.error` carrying the kind of the throw site. -/
def validateFieldDefinition (fieldDef : List Char) : Except FieldError Unit :=
  let parts := splitCh ':' fieldDef
  let rawType := parts.getD 1 []
  let type0 := if rawType = [] then "string".data else rawType
  let name := stripQ (parts.getD 0 [])
  let type := stripQ type0
  if name = [] then Except.error FieldError.emptyName
  else if !nameOk name then Except.error FieldError.invalidName
  else if SQL_RESERVED_WORDS.contains (name.map Char.toLower) then
    Except.error FieldError.reservedName
  else if type ≠ [] && !(dropLit "references".data type).isSome &&
      type ≠ "enum".data && type ≠ "unique".data &&
      !VALID_FIELD_TYPES.contains type then
    Except.error FieldError.invalidType
  else if type = "enum".data then
    match parts.get? 2 with
    | none => Except.error FieldError.missingEnumValues
    | some ev =>
      if ev = [] then Except.error FieldError.missingEnumValues
      else if ev = "unique".data then Except.error FieldError.missingEnumValues
      else
        let values := splitCh ',' ev
        match checkEnumValues values with
        | Except.error e => Except.error e
        | Except.ok _ =>
          if values.Nodup then Except.ok ()
          else Except.error FieldError.duplicateEnumValue
  else Except.ok ()

/-- The per-token mapping body of `parseFields` (src/unnamed/part_006):
split on `:`, default the type to `string` (an empty or missing second
segment is falsy), detect the nullable `?` on name or type and strip it,
detect a literal `unique` segment, then build the reference, enum or plain
field. -/
def parseFieldToken (token : List Char) : Field :=
  let parts := splitCh ':' token
  let name0 := parts.getD 0 []
  let rawType := parts.getD 1 []
  let type0 := if rawType = [] then "string".data else rawType
  let nullable := endsQ name0 || endsQ type0
  let name := stripQ name0
  let type := stripQ type0
  let unique := decide ("unique".data ∈ parts)
  if type = "references".data then
    { name := name, type := "integer".data, isReference := true, isEnum := false,
      referenceTo := parts.get? 2, enumValues := none,
      nullable := nullable, unique := unique }
  else if type = "enum".data then
    { name := name, type := "enum".data, isReference := false, isEnum := true,
      referenceTo := none,
      enumValues := some (match parts.get? 2 with
        | none => []
        | some v => splitCh ',' v),
      nullable := nullable, unique := unique }
  else
    { name := name, type := type, isReference := false, isEnum := false,
      referenceTo := none, enumValues := none,
      nullable := nullable, unique := unique }

/-- Shallow embedding of `parseFields` (src/unnamed/part_006): validate each
token and map it to a `Field`; the first validation throw aborts the map. -/
def parseFields : List (List Char) → Except FieldError (List Field)
  | [] => Except.ok []
  | f :: fs =>
    match validateFieldDefinition f with
    | Except.error e => Except.error e
    | Except.ok _ =>
      match parseFields fs with
      | Except.error e => Except.error e
      | Except.ok rest => Except.ok (parseFieldToken f :: rest)

/-! ### Dialect type maps (src/unnamed/part_007) -/

/-- `SQLITE_TYPE_MAP`. -/
def SQLITE_TYPE_MAP : List (List Char × List Char) :=
  [("string", "text"), ("text", "text"), ("integer", "integer"),
   ("int", "integer"), ("bigint", "integer"),
   ("boolean", "integer(\x7b mode: \x22boolean\x22 \x7d)"),
   ("bool", "integer(\x7b mode: \x22boolean\x22 \x7d)"),
   ("datetime", "integer(\x7b mode: \x22timestamp\x22 \x7d)"),
   ("timestamp", "integer(\x7b mode: \x22timestamp\x22 \x7d)"),
   ("date", "integer(\x7b mode: \x22timestamp\x22 \x7d)"),
   ("float", "real"), ("decimal", "text"), ("json", "text"),
   ("uuid", "text")].map fun p => (p.1.data, p.2.data)

/-- `POSTGRESQL_TYPE_MAP`. -/
def POSTGRESQL_TYPE_MAP : List (List Char × List Char) :=
  [("string", "text"), ("text", "text"), ("integer", "integer"),
   ("int", "integer"), ("bigint", "bigint"), ("boolean", "boolean"),
   ("bool", "boolean"), ("datetime", "timestamp"),
   ("timestamp", "timestamp"), ("date", "date"),
   ("float", "doublePrecision"), ("decimal", "numeric"), ("json", "jsonb"),
   ("uuid", "uuid")].map fun p => (p.1.data, p.2.data)

/-- `MYSQL_TYPE_MAP`. -/
def MYSQL_TYPE_MAP : List (List Char × List Char) :=
  [("string", "varchar"), ("text", "text"), ("integer", "int"),
   ("int", "int"), ("bigint", "bigint"), ("boolean", "boolean"),
   ("bool", "boolean"), ("datetime", "datetime"),
   ("timestamp", "timestamp"), ("date", "date"), ("float", "double"),
   ("decimal", "decimal"), ("json", "json"),
   ("uuid", "varchar")].map fun p => (p.1.data, p.2.data)

/-- The dialect's map, as selected by `drizzleType`. -/
def typeMapOf : Dialect → List (List Char × List Char)
  | Dialect.postgresql => POSTGRESQL_TYPE_MAP
  | Dialect.mysql => MYSQL_TYPE_MAP
  | Dialect.sqlite => SQLITE_TYPE_MAP

/-- Shallow embedding of `drizzleType` (src/unnamed/part_007): look the
field's type up in the dialect's map, with the `|| "text"` fallback (no map
value is empty, so falsiness coincides with absence). -/
def drizzleType (field : Field) (dialect : Dialect) : List Char :=
  ((typeMapOf dialect).lookup field.type).getD "text".data

/-! ### Import merging (src/src/lib/drizzle/imports.ts) -/

/-- Worker for first-occurrence deduplication: insert each element into the
set unless already seen, keeping insertion order. -/
def dedupFirstGo (seen : List (List Char)) : List (List Char) → List (List Char)
  | [] => []
  | x :: xs =>
    if x ∈ seen then dedupFirstGo seen xs
    else x :: dedupFirstGo (x :: seen) xs

/-- First-occurrence deduplication: the order-preserving content of the
JavaScript `Array.from(new Set(l))`. -/
def dedupFirst (l : List (List Char)) : List (List Char) :=
  dedupFirstGo [] l

/-- The merge step of `updateSchemaImports`:
`Array.from(new Set([...existingImports, ...newImports]))`. -/
def mergeImports (existingImports newImports : List (List Char)) : List (List Char) :=
  dedupFirst (existingImports ++ newImports)

/-! ### Line-level description of the blank-line normalization (spec side)

For the frame claim about `removeModelFromSchemaContent` the cosmetic
`\n{3,}` collapse is restated at the level of the line sequence: a maximal
run of `k` newline characters in the joined text becomes `min k 2`, which on
lines means a leading or trailing run of `k` blank lines becomes
`min k 2` blank lines, an interior run of `k` blank lines becomes
`min k 1`, and an all-blank file of `k` lines becomes `min k 3` lines. -/

/-- Collapse the blank-line runs occurring after some non-blank line, with
`k` blank lines pending: a trailing run of `k` blanks keeps `min k 2`, an
interior run (followed by a non-blank line) keeps `min k 1`. -/
def cblTailGo (k : Nat) : List (List Char) → List (List Char)
  | [] => List.replicate (min k 2) []
  | l :: rest =>
    if l = [] then cblTailGo (k + 1) rest
    else List.replicate (min k 1) [] ++ l :: cblTailGo 0 rest

/-- Worker for `collapseBlankLines` with `k` leading blank lines pending: an
all-blank list of `k` lines keeps `min k 3` lines (the empty list is mapped
to the line decomposition of empty content), a leading run of `k` blanks
before a non-blank line keeps `min k 2`. -/
def cblGo (k : Nat) : List (List Char) → List (List Char)
  | [] => if k = 0 then [[]] else List.replicate (min k 3) []
  | l :: rest =>
    if l = [] then cblGo (k + 1) rest
    else List.replicate (min k 2) [] ++ l :: cblTailGo 0 rest

/-- Line-level restatement of the newline collapse of
`removeModelFromSchemaContent`, used by the frame theorem. -/
def collapseBlankLines (ls : List (List Char)) : List (List Char) :=
  cblGo 0 ls

/-! ## Lemmas about `splitCh` -/

theorem splitCh_no_sep {sep : Char} {a : List Char} (h : sep ∉ a) :
    splitCh sep a = [a] := by
  induction a with
  | nil => rfl
  | cons c cs ih =>
    simp only [List.mem_cons, not_or] at h
    rw [splitCh, if_neg fun hc => h.1 hc.symm, ih h.2]

theorem splitCh_append {sep : Char} {a : List Char} (b : List Char) (h : sep ∉ a) :
    splitCh sep (a ++ sep :: b) = a :: splitCh sep b := by
  induction a with
  | nil => simp [splitCh]
  | cons c cs ih =>
    simp only [List.mem_cons, not_or] at h
    rw [List.cons_append, splitCh, if_neg fun hc => h.1 hc.symm, ih h.2]

/-! ## C5, C6: concrete validation and type-map facts -/

/-- C5: enum validation raises the specified error kind for each malformed
enum token: `status:enum:draft,draft` raises the duplicate-value error,
`status:enum` raises the missing-values error, and `status:enum:1bad`
raises the invalid-value error. -/
theorem c5_enum_validation_errors :
    validateFieldDefinition "status:enum:draft,draft".data
      = Except.error FieldError.duplicateEnumValue ∧
    validateFieldDefinition "status:enum".data
      = Except.error FieldError.missingEnumValues ∧
    validateFieldDefinition "status:enum:1bad".data
      = Except.error FieldError.invalidEnumValue := by
  decide

/-- Counterexample to C6 as stated: the postgresql and mysql column specs for
a `boolean` field are the same string `boolean`, so the three dialects'
results are not pairwise different. -/
theorem c6_boolean_counterexample :
    drizzleType (Field.mk "flag".data "boolean".data false false none none false false)
        Dialect.postgresql
      = drizzleType (Field.mk "flag".data "boolean".data false false none none false false)
        Dialect.mysql := by
  decide

/-- C6 (amended): for a Field with type `boolean`, `drizzleType` returns the
integer-backed boolean-mode spec on sqlite and the native `boolean` spec on
both postgresql and mysql; the sqlite spec differs from the other two, which
are equal to each other. -/
theorem c6_boolean_mapping (f : Field) (h : f.type = "boolean".data) :
    drizzleType f Dialect.sqlite = "integer(\x7b mode: \x22boolean\x22 \x7d)".data ∧
    drizzleType f Dialect.postgresql = "boolean".data ∧
    drizzleType f Dialect.mysql = "boolean".data ∧
    drizzleType f Dialect.sqlite ≠ drizzleType f Dialect.postgresql := by
  simp only [drizzleType, h]
  decide

theorem c6_boolean_mapping_witness :
    drizzleType (Field.mk "flag".data "boolean".data false false none none false false)
      Dialect.sqlite = "integer(\x7b mode: \x22boolean\x22 \x7d)".data ∧
    drizzleType (Field.mk "flag".data "boolean".data false false none none false false)
      Dialect.postgresql = "boolean".data ∧
    drizzleType (Field.mk "flag".data "boolean".data false false none none false false)
      Dialect.mysql = "boolean".data ∧
    drizzleType (Field.mk "flag".data "boolean".data false false none none false false)
        Dialect.sqlite
      ≠ drizzleType (Field.mk "flag".data "boolean".data false false none none false false)
        Dialect.postgresql :=
  c6_boolean_mapping
    (Field.mk "flag".data "boolean".data false false none none false false) (by decide)

/-! ## C1, C2, C4, C9: counterexamples at concrete inputs -/

/-- Counterexample to C1 as stated: on content holding a table call that is
not on an `export const` header line, the lightweight regex check reports
true while the line-by-line scan never reaches Found (and removal is a
no-op), so the two checks do not agree on every content string. -/
theorem c1_exists_check_counterexample :
    modelExistsInSchema "const p = sqliteTable(\x22posts\x22);".data "posts".data = true ∧
    findBlock "posts".data
      (splitCh '\n' "const p = sqliteTable(\x22posts\x22);".data) = none ∧
    removeModelFromSchemaContent "const p = sqliteTable(\x22posts\x22);".data "posts".data
      = "const p = sqliteTable(\x22posts\x22);".data := by
  decide

/-- Counterexample to C2 as stated: the block is exactly line 0, and deleting
it leaves `a\n\n\nb`, which contains a run of only two consecutive blank
lines; the function nevertheless collapses that run to one blank line, so a
line outside the deleted block is changed even though no run of three or
more blank lines exists. -/
theorem c2_removal_counterexample :
    findBlock "posts".data
      (splitCh '\n'
        "export const posts = sqliteTable(\x22posts\x22, \x7b\x7d);\na\n\n\nb".data)
      = some (0, 0) ∧
    joinNl
      ((splitCh '\n'
        "export const posts = sqliteTable(\x22posts\x22, \x7b\x7d);\na\n\n\nb".data).drop 1)
      = "a\n\n\nb".data ∧
    removeModelFromSchemaContent
      "export const posts = sqliteTable(\x22posts\x22, \x7b\x7d);\na\n\n\nb".data
      "posts".data = "a\n\nb".data ∧
    "a\n\nb".data ≠ "a\n\n\nb".data := by
  decide

/-- Counterexample to C4 as stated: both `a?:unique` and `a:unique?` pass
validation, but they parse to different Fields: the `unique` modifier check
runs on the raw unstripped segments, so the stripped `unique?` segment no
longer sets the unique flag. -/
theorem c4_nullable_counterexample :
    validateFieldDefinition "a?:unique".data = Except.ok () ∧
    validateFieldDefinition "a:unique?".data = Except.ok () ∧
    parseFieldToken "a?:unique".data ≠ parseFieldToken "a:unique?".data := by
  decide

/-- Counterexample to C9 as stated: the type segment `references?` starts
with `references` and is not exactly `references`, yet validation accepts
the token and the parser strips the trailing `?` before the comparison, so
it produces a reference field, not a plain one. -/
theorem c9_references_counterexample :
    validateFieldDefinition "authorId:references?".data = Except.ok () ∧
    (parseFieldToken "authorId:references?".data).isReference = true := by
  decide

/-! ## C3: removal is total and a no-op when the scan does not reach Found -/

/-- C3: `removeModelFromSchemaContent` is a total function of the content
(malformed input cannot raise), and whenever the header-search and
brace-depth scan do not reach the Found state — no header line for the
table, unbalanced braces, or end of file inside the block — it returns the
input content unchanged. -/
theorem c3_remove_noop_when_not_found (content tableName : List Char)
    (h : findBlock tableName (splitCh '\n' content) = none) :
    removeModelFromSchemaContent content tableName = content := by
  unfold removeModelFromSchemaContent
  simp only []
  rw [h]

theorem c3_remove_noop_when_not_found_witness :
    removeModelFromSchemaContent
      "export const posts = sqliteTable(\x22posts\x22, \x7b\nunclosed".data "posts".data
      = "export const posts = sqliteTable(\x22posts\x22, \x7b\nunclosed".data :=
  c3_remove_noop_when_not_found
    "export const posts = sqliteTable(\x22posts\x22, \x7b\nunclosed".data "posts".data
    (by decide)

/-! ## C7: import merging -/

theorem dedupFirstGo_congr {s1 s2 : List (List Char)} (h : ∀ a, a ∈ s1 ↔ a ∈ s2) :
    ∀ l, dedupFirstGo s1 l = dedupFirstGo s2 l := by
  intro l
  induction l generalizing s1 s2 with
  | nil => rfl
  | cons x xs ih =>
    by_cases hx : x ∈ s1
    · rw [dedupFirstGo, if_pos hx, dedupFirstGo, if_pos ((h x).mp hx), ih h]
    · rw [dedupFirstGo, if_neg hx, dedupFirstGo, if_neg (fun hc => hx ((h x).mpr hc))]
      have h' : ∀ a, a ∈ x :: s1 ↔ a ∈ x :: s2 := by
        intro a
        rw [List.mem_cons, List.mem_cons, h a]
      rw [ih h']

theorem mem_dedupFirstGo {a : List Char} :
    ∀ {seen l : List (List Char)}, a ∈ dedupFirstGo seen l ↔ a ∈ l ∧ a ∉ seen := by
  intro seen l
  induction l generalizing seen with
  | nil => simp [dedupFirstGo]
  | cons x xs ih =>
    rw [dedupFirstGo]
    split <;> rename_i hx <;> simp only [ih, List.mem_cons] <;>
      by_cases hax : a = x
    · subst hax; tauto
    · tauto
    · subst hax; tauto
    · tauto

theorem nodup_dedupFirstGo :
    ∀ (seen l : List (List Char)), (dedupFirstGo seen l).Nodup := by
  intro seen l
  induction l generalizing seen with
  | nil => exact List.nodup_nil
  | cons x xs ih =>
    rw [dedupFirstGo]
    split
    · exact ih seen
    · refine List.nodup_cons.mpr ⟨fun hc => ?_, ih (x :: seen)⟩
      exact (mem_dedupFirstGo.mp hc).2 (List.mem_cons_self _ _)

theorem dedupFirstGo_append (A B seen : List (List Char)) :
    dedupFirstGo seen (A ++ B) = dedupFirstGo seen A ++ dedupFirstGo (A ++ seen) B := by
  induction A generalizing seen with
  | nil => simp [dedupFirstGo]
  | cons x A' ih =>
    by_cases hx : x ∈ seen
    · have hc : dedupFirstGo (A' ++ seen) B = dedupFirstGo ((x :: A') ++ seen) B := by
        refine dedupFirstGo_congr (fun a => ?_) B
        simp only [List.cons_append, List.mem_cons, List.mem_append]
        by_cases hax : a = x
        · subst hax; tauto
        · tauto
      rw [List.cons_append, dedupFirstGo, if_pos hx, dedupFirstGo, if_pos hx, ih, hc]
    · have hc : dedupFirstGo (A' ++ x :: seen) B = dedupFirstGo ((x :: A') ++ seen) B := by
        refine dedupFirstGo_congr (fun a => ?_) B
        simp only [List.cons_append, List.mem_cons, List.mem_append]
        by_cases hax : a = x
        · subst hax; tauto
        · tauto
      rw [List.cons_append, dedupFirstGo, if_neg hx, dedupFirstGo, if_neg hx, ih, hc,
        List.cons_append]
      exact (List.cons_append _ _ _).symm

theorem dedupFirstGo_eq_self {seen l : List (List Char)} (h1 : l.Nodup)
    (h2 : ∀ a ∈ l, a ∉ seen) : dedupFirstGo seen l = l := by
  induction l generalizing seen with
  | nil => rfl
  | cons x xs ih =>
    rw [dedupFirstGo, if_neg (h2 x (List.mem_cons_self _ _))]
    congr 1
    refine ih (List.nodup_cons.mp h1).2 fun a ha => ?_
    intro hc
    rcases List.mem_cons.mp hc with rfl | hc
    · exact (List.nodup_cons.mp h1).1 ha
    · exact h2 a (List.mem_cons_of_mem _ ha) hc

theorem dedupFirstGo_eq_nil {seen l : List (List Char)} (h : ∀ a ∈ l, a ∈ seen) :
    dedupFirstGo seen l = [] := by
  induction l with
  | nil => rfl
  | cons x xs ih =>
    rw [dedupFirstGo, if_pos (h x (List.mem_cons_self _ _))]
    exact ih fun a ha => h a (List.mem_cons_of_mem _ ha)

theorem dedupFirstGo_split (s2 : List (List Char)) :
    ∀ (l s1 : List (List Char)),
    dedupFirstGo (s1 ++ s2) l = dedupFirstGo s1 (l.filter fun a => decide (a ∉ s2)) := by
  intro l
  induction l with
  | nil => intro s1; rfl
  | cons x xs ih =>
    intro s1
    by_cases h2 : x ∈ s2
    · rw [dedupFirstGo, if_pos (List.mem_append.mpr (Or.inr h2))]
      rw [List.filter_cons, if_neg (by simpa using h2)]
      exact ih s1
    · by_cases h1 : x ∈ s1
      · rw [dedupFirstGo, if_pos (List.mem_append.mpr (Or.inl h1))]
        rw [List.filter_cons, if_pos (by simpa using h2), dedupFirstGo, if_pos h1]
        exact ih s1
      · rw [dedupFirstGo,
          if_neg (fun hc => (List.mem_append.mp hc).elim h1 h2)]
        rw [List.filter_cons, if_pos (by simpa using h2), dedupFirstGo, if_neg h1]
        rw [← List.cons_append, ih (x :: s1)]

/-- C7: the inline merge `Array.from(new Set([...existing, ...new]))` of
`updateSchemaImports` is an order-stable, idempotent set union: the merged
list has no duplicate symbol, it is the first-occurrence deduplication of
the existing symbols followed by the not-yet-present new symbols in order of
appearance, and re-merging the same new symbols into the result is a fixed
point. -/
theorem c7_merge_imports (A B : List (List Char)) :
    (mergeImports A B).Nodup ∧
    mergeImports A B
      = dedupFirst A ++ dedupFirst (B.filter fun b => decide (b ∉ A)) ∧
    mergeImports (mergeImports A B) B = mergeImports A B := by
  have hsplit : ∀ X Y : List (List Char),
      dedupFirstGo [] (X ++ Y) = dedupFirstGo [] X ++ dedupFirstGo X Y := by
    intro X Y
    rw [dedupFirstGo_append, List.append_nil]
  refine ⟨nodup_dedupFirstGo [] (A ++ B), ?_, ?_⟩
  · show dedupFirstGo [] (A ++ B) = _
    rw [hsplit]
    show _ = dedupFirstGo [] A ++ dedupFirstGo [] (B.filter fun b => decide (b ∉ A))
    congr 1
    have := dedupFirstGo_split A B []
    simpa using this
  · show dedupFirstGo [] (dedupFirstGo [] (A ++ B) ++ B) = dedupFirstGo [] (A ++ B)
    rw [hsplit]
    have hD : dedupFirstGo [] (dedupFirstGo [] (A ++ B))
        = dedupFirstGo [] (A ++ B) :=
      dedupFirstGo_eq_self (nodup_dedupFirstGo [] (A ++ B)) (by simp)
    have hB : dedupFirstGo (dedupFirstGo [] (A ++ B)) B = [] :=
      dedupFirstGo_eq_nil fun a ha =>
        mem_dedupFirstGo.mpr ⟨List.mem_append.mpr (Or.inr ha), List.not_mem_nil a⟩
    rw [hD, hB, List.append_nil]

/-! ## C8: the parsed field is a tagged union -/

theorem parseFieldToken_tagged (t : List Char) :
    ((parseFieldToken t).isEnum && (parseFieldToken t).isReference) = false ∧
    ((parseFieldToken t).enumValues.isSome = true → (parseFieldToken t).isEnum = true) ∧
    ((parseFieldToken t).referenceTo.isSome = true →
      (parseFieldToken t).isReference = true) := by
  unfold parseFieldToken
  simp only []
  repeat' split
  all_goals simp

theorem parseFields_mem {tokens : List (List Char)} {flds : List Field}
    (h : parseFields tokens = Except.ok flds) :
    ∀ f ∈ flds, ∃ t, f = parseFieldToken t := by
  induction tokens generalizing flds with
  | nil =>
    rw [parseFields] at h
    cases h
    intro f hf
    exact absurd hf (List.not_mem_nil f)
  | cons t ts ih =>
    rw [parseFields] at h
    rcases h1 : validateFieldDefinition t with e | u
    · rw [h1] at h; cases h
    · rw [h1] at h
      rcases h2 : parseFields ts with e | rest
      · rw [h2] at h; cases h
      · rw [h2] at h
        cases h
        intro f hf
        rcases List.mem_cons.mp hf with rfl | hf
        · exact ⟨t, rfl⟩
        · exact ih h2 f hf

/-- C8: every Field produced by a successful `parseFields` run is exactly one
of primitive, enum or reference: `isEnum` and `isReference` are never both
true, `enumValues` is present only on enum fields and `referenceTo` only on
reference fields. -/
theorem c8_field_tagged_union (tokens : List (List Char)) (flds : List Field)
    (h : parseFields tokens = Except.ok flds) :
    ∀ f ∈ flds,
      (f.isEnum && f.isReference) = false ∧
      (f.enumValues.isSome = true → f.isEnum = true) ∧
      (f.referenceTo.isSome = true → f.isReference = true) := by
  intro f hf
  obtain ⟨t, rfl⟩ := parseFields_mem h f hf
  exact parseFieldToken_tagged t

theorem c8_field_tagged_union_witness :
    ((Field.mk "status".data "enum".data false true none
        (some ["a".data, "b".data]) false false).isEnum &&
      (Field.mk "status".data "enum".data false true none
        (some ["a".data, "b".data]) false false).isReference) = false ∧
    ((Field.mk "status".data "enum".data false true none
        (some ["a".data, "b".data]) false false).enumValues.isSome = true →
      (Field.mk "status".data "enum".data false true none
        (some ["a".data, "b".data]) false false).isEnum = true) ∧
    ((Field.mk "status".data "enum".data false true none
        (some ["a".data, "b".data]) false false).referenceTo.isSome = true →
      (Field.mk "status".data "enum".data false true none
        (some ["a".data, "b".data]) false false).isReference = true) :=
  c8_field_tagged_union ["status:enum:a,b".data]
    [Field.mk "status".data "enum".data false true none
      (some ["a".data, "b".data]) false false]
    (by decide)
    (Field.mk "status".data "enum".data false true none
      (some ["a".data, "b".data]) false false)
    (by simp)

/-! ## C10, C9, C4: universal facts about single tokens -/

theorem lookup_none {m : List (List Char × List Char)} {k : List Char}
    (h : k ∉ m.map Prod.fst) : m.lookup k = none := by
  induction m with
  | nil => rfl
  | cons p m ih =>
    obtain ⟨k', v⟩ := p
    simp only [List.map_cons, List.mem_cons, not_or] at h
    rw [List.lookup, beq_eq_false_iff_ne.mpr h.1]
    exact ih h.2

/-- C10: a bare `unique` modifier with no preceding type segment becomes the
field's type: `name:unique` passes validation (for a valid, unreserved
name), parses to a Field with `unique = true` whose type is the literal
string `unique`, and `drizzleType` maps that Field to the fallback `text`
spec in every dialect; in general `drizzleType` is total and returns `text`
for any type outside the dialect's vocabulary. -/
theorem c10_bare_unique (name : List Char) (hcolon : ':' ∉ name)
    (hq : endsQ name = false) :
    (nameOk name = true →
      name.map Char.toLower ∉ SQL_RESERVED_WORDS →
      validateFieldDefinition (name ++ ':' :: "unique".data) = Except.ok ()) ∧
    parseFieldToken (name ++ ':' :: "unique".data)
      = Field.mk name "unique".data false false none none false true ∧
    (∀ d : Dialect,
      drizzleType (parseFieldToken (name ++ ':' :: "unique".data)) d = "text".data) ∧
    (∀ (f : Field) (d : Dialect),
      f.type ∉ (typeMapOf d).map Prod.fst → drizzleType f d = "text".data) := by
  have hparts : splitCh ':' (name ++ ':' :: "unique".data) = [name, "unique".data] := by
    rw [splitCh_append _ hcolon, splitCh_no_sep (by decide)]
  have hu : decide ("unique".data ∈ [name, "unique".data]) = true :=
    decide_eq_true (List.mem_cons_of_mem _ (List.mem_cons_self _ _))
  have hsq : stripQ name = name := by rw [stripQ, hq]; rfl
  have hqu : endsQ "unique".data = false := by decide
  have hsqu : stripQ "unique".data = "unique".data := by decide
  have hfallback : ∀ (f : Field) (d : Dialect),
      f.type ∉ (typeMapOf d).map Prod.fst → drizzleType f d = "text".data := by
    intro f d h
    rw [drizzleType, lookup_none h]
    rfl
  have hp : parseFieldToken (name ++ ':' :: "unique".data)
      = Field.mk name "unique".data false false none none false true := by
    unfold parseFieldToken
    simp +decide [hparts, hu, hq, hsq, hqu, hsqu]
  refine ⟨?_, hp, ?_, hfallback⟩
  · intro h1 h2
    have hne : name ≠ [] := by
      intro h
      rw [h] at h1
      exact Bool.noConfusion h1
    unfold validateFieldDefinition
    simp +decide [hparts, hsq, hsqu, hne, h1, h2]
  · intro d
    rw [hp]
    refine hfallback _ d ?_
    show "unique".data ∉ _
    cases d <;> decide

theorem dropLit_self : ∀ (lit rest : List Char), dropLit lit (lit ++ rest) = some rest := by
  intro lit
  induction lit with
  | nil => intro rest; rfl
  | cons c l ih =>
    intro rest
    rw [List.cons_append, dropLit, if_pos rfl]
    exact ih rest

theorem ne_of_headQ {a b : List Char} (h : a.head? ≠ b.head?) : a ≠ b :=
  fun he => h (he ▸ rfl)

theorem endsQ_append {a b : List Char} (hb : b ≠ []) : endsQ (a ++ b) = endsQ b := by
  rw [endsQ, endsQ, List.getLast?_append]
  cases hx : b.getLast? with
  | none => exact absurd (List.getLast?_eq_none_iff.mp hx) hb
  | some x => rfl

/-- C9 (amended): for a token `name:referencesX` whose type segment starts
with `references`, has no trailing `?`, and still differs from `references`
(`X` nonempty), the validator accepts the token (for a valid, unreserved
name) while the parser returns a plain Field: `isReference = false`, no
`referenceTo`, and the type is the raw segment string.  The restriction to
segments without a trailing `?` is forced by the counterexample
`authorId:references?`, which the parser strips to exactly `references` and
turns into a reference field. -/
theorem c9_references_mismatch (name suffix : List Char)
    (hcn : ':' ∉ name) (hcs : ':' ∉ suffix)
    (hqn : endsQ name = false) (hqs : endsQ suffix = false)
    (hs : suffix ≠ []) (hnu : name ≠ "unique".data)
    (h1 : nameOk name = true)
    (h2 : SQL_RESERVED_WORDS.contains (name.map Char.toLower) = false) :
    validateFieldDefinition (name ++ ':' :: ("references".data ++ suffix))
      = Except.ok () ∧
    parseFieldToken (name ++ ':' :: ("references".data ++ suffix))
      = Field.mk name ("references".data ++ suffix) false false none none
          false false := by
  have hcolon2 : ':' ∉ "references".data ++ suffix := by
    intro h
    rcases List.mem_append.mp h with h | h
    · exact absurd h (by decide)
    · exact hcs h
  have hparts : splitCh ':' (name ++ ':' :: ("references".data ++ suffix))
      = [name, "references".data ++ suffix] := by
    rw [splitCh_append _ hcn, splitCh_no_sep hcolon2]
  have hq2 : endsQ ("references".data ++ suffix) = false := by
    rw [endsQ_append hs, hqs]
  have hsqn : stripQ name = name := by rw [stripQ, hqn]; rfl
  have hsq2 : stripQ ("references".data ++ suffix) = "references".data ++ suffix := by
    rw [stripQ, hq2]; rfl
  have hne_nil : "references".data ++ suffix ≠ [] := by
    intro h
    rw [List.append_eq_nil] at h
    exact absurd h.1 (by decide)
  have hne_refs : "references".data ++ suffix ≠ "references".data := by
    intro h
    rw [show ("references".data : List Char) = "references".data ++ [] from
      (List.append_nil _).symm] at h
    exact hs (List.append_cancel_left (h.trans (List.append_nil _)))
  have hne_enum : "references".data ++ suffix ≠ "enum".data :=
    ne_of_headQ (by rw [show ("references".data ++ suffix).head? = some 'r' from rfl]; decide)
  have hne_uniq : "references".data ++ suffix ≠ "unique".data :=
    ne_of_headQ (by rw [show ("references".data ++ suffix).head? = some 'r' from rfl]; decide)
  have huniq : decide ("unique".data ∈ [name, "references".data ++ suffix]) = false := by
    refine decide_eq_false ?_
    intro h
    rcases List.mem_cons.mp h with h | h
    · exact hnu h.symm
    · exact hne_uniq (List.mem_singleton.mp h).symm
  have hne : name ≠ [] := by
    intro h
    rw [h] at h1
    exact Bool.noConfusion h1
  constructor
  · unfold validateFieldDefinition
    simp only [hparts, List.getD_cons_zero, List.getD_cons_succ]
    rw [if_neg hne_nil, hsqn, hsq2]
    rw [if_neg hne, h1]
    rw [if_neg (show ¬((!true) = true) by decide)]
    rw [h2, if_neg (show ¬(false = true) by decide)]
    rw [dropLit_self]
    simp only [Option.isSome_some, Bool.not_true, Bool.and_false, Bool.false_and]
    rw [if_neg (show ¬(false = true) by decide)]
    rw [if_neg hne_enum]
  · unfold parseFieldToken
    simp only [hparts, List.getD_cons_zero, List.getD_cons_succ]
    rw [if_neg hne_nil, hsqn, hsq2, hqn, hq2, huniq]
    rw [if_neg hne_refs, if_neg hne_enum]
    rfl

/-- C4 (amended): the two placements of the nullable `?` are equivalent for
every token whose name and type segments are nonempty of `?`-free tail, whose
type segment is nonempty, and where neither segment is the literal `unique`:
`name?:type` parses to the same Field as `name:type?`, which equals the
Field of `name:type` with `nullable := true`.  The `unique` exclusion is
forced by the counterexample `a?:unique` versus `a:unique?` (the modifier
check runs on raw segments), and an empty type segment defaults to `string`
only when the `?` sits on the name. -/
theorem c4_nullable_equivalence (name ty : List Char)
    (hcn : ':' ∉ name) (hct : ':' ∉ ty)
    (hqn : endsQ name = false) (hqt : endsQ ty = false)
    (hty : ty ≠ []) (hnu : name ≠ "unique".data) (htu : ty ≠ "unique".data) :
    parseFieldToken ((name ++ ['?']) ++ ':' :: ty)
      = parseFieldToken (name ++ ':' :: (ty ++ ['?'])) ∧
    parseFieldToken (name ++ ':' :: (ty ++ ['?']))
      = { parseFieldToken (name ++ ':' :: ty) with nullable := true } := by
  have hq1 : endsQ (name ++ ['?']) = true :=
    decide_eq_true (by rw [List.getLast?_concat])
  have hq2 : endsQ (ty ++ ['?']) = true :=
    decide_eq_true (by rw [List.getLast?_concat])
  have hsn : stripQ name = name := by rw [stripQ, hqn]; rfl
  have hst : stripQ ty = ty := by rw [stripQ, hqt]; rfl
  have hs1 : stripQ (name ++ ['?']) = name := by
    rw [stripQ, hq1, if_pos rfl]
    exact List.dropLast_concat
  have hs2 : stripQ (ty ++ ['?']) = ty := by
    rw [stripQ, hq2, if_pos rfl]
    exact List.dropLast_concat
  have hc1 : ':' ∉ name ++ ['?'] := by
    intro h
    rcases List.mem_append.mp h with h | h
    · exact hcn h
    · exact absurd (List.mem_singleton.mp h) (by decide)
  have hc2 : ':' ∉ ty ++ ['?'] := by
    intro h
    rcases List.mem_append.mp h with h | h
    · exact hct h
    · exact absurd (List.mem_singleton.mp h) (by decide)
  have hparts1 : splitCh ':' ((name ++ ['?']) ++ ':' :: ty) = [name ++ ['?'], ty] := by
    rw [splitCh_append _ hc1, splitCh_no_sep hct]
  have hparts2 : splitCh ':' (name ++ ':' :: (ty ++ ['?'])) = [name, ty ++ ['?']] := by
    rw [splitCh_append _ hcn, splitCh_no_sep hc2]
  have hparts0 : splitCh ':' (name ++ ':' :: ty) = [name, ty] := by
    rw [splitCh_append _ hcn, splitCh_no_sep hct]
  have hty2 : ty ++ ['?'] ≠ [] := by
    intro h
    rw [List.append_eq_nil] at h
    exact absurd h.2 (by decide)
  have hqend : endsQ "unique".data = false := by decide
  have hnuq : name ++ ['?'] ≠ "unique".data := by
    intro h
    rw [← h, hq1] at hqend
    exact Bool.noConfusion hqend
  have htuq : ty ++ ['?'] ≠ "unique".data := by
    intro h
    rw [← h, hq2] at hqend
    exact Bool.noConfusion hqend
  have hu1 : decide ("unique".data ∈ [name ++ ['?'], ty]) = false := by
    refine decide_eq_false ?_
    intro h
    rcases List.mem_cons.mp h with h | h
    · exact hnuq h.symm
    · exact htu (List.mem_singleton.mp h).symm
  have hu2 : decide ("unique".data ∈ [name, ty ++ ['?']]) = false := by
    refine decide_eq_false ?_
    intro h
    rcases List.mem_cons.mp h with h | h
    · exact hnu h.symm
    · exact htuq (List.mem_singleton.mp h).symm
  have hu0 : decide ("unique".data ∈ [name, ty]) = false := by
    refine decide_eq_false ?_
    intro h
    rcases List.mem_cons.mp h with h | h
    · exact hnu h.symm
    · exact htu (List.mem_singleton.mp h).symm
  have e1 : parseFieldToken ((name ++ ['?']) ++ ':' :: ty)
      = (if ty = "references".data then
          Field.mk name "integer".data true false none none true false
        else if ty = "enum".data then
          Field.mk name "enum".data false true none (some []) true false
        else Field.mk name ty false false none none true false) := by
    unfold parseFieldToken
    simp only [hparts1, List.getD_cons_zero, List.getD_cons_succ, List.get?_cons_succ,
      List.get?_nil]
    rw [if_neg hty, hs1, hst, hq1, hqt, hu1]
    rfl
  have e2 : parseFieldToken (name ++ ':' :: (ty ++ ['?']))
      = (if ty = "references".data then
          Field.mk name "integer".data true false none none true false
        else if ty = "enum".data then
          Field.mk name "enum".data false true none (some []) true false
        else Field.mk name ty false false none none true false) := by
    unfold parseFieldToken
    simp only [hparts2, List.getD_cons_zero, List.getD_cons_succ, List.get?_cons_succ,
      List.get?_nil]
    rw [if_neg hty2, hsn, hs2, hqn, hq2, hu2]
    rfl
  have e0 : parseFieldToken (name ++ ':' :: ty)
      = (if ty = "references".data then
          Field.mk name "integer".data true false none none false false
        else if ty = "enum".data then
          Field.mk name "enum".data false true none (some []) false false
        else Field.mk name ty false false none none false false) := by
    unfold parseFieldToken
    simp only [hparts0, List.getD_cons_zero, List.getD_cons_succ, List.get?_cons_succ,
      List.get?_nil]
    rw [if_neg hty, hsn, hst, hqn, hqt, hu0]
    rfl
  refine ⟨e1.trans e2.symm, ?_⟩
  rw [e2, e0]
  by_cases href : ty = "references".data
  · rw [if_pos href, if_pos href]
  · rw [if_neg href, if_neg href]
    by_cases henum : ty = "enum".data
    · rw [if_pos henum, if_pos henum]
    · rw [if_neg henum, if_neg henum]


theorem c4_nullable_equivalence_witness :
    parseFieldToken (("body".data ++ ['?']) ++ ':' :: "text".data)
      = parseFieldToken ("body".data ++ ':' :: ("text".data ++ ['?'])) ∧
    parseFieldToken ("body".data ++ ':' :: ("text".data ++ ['?']))
      = { parseFieldToken ("body".data ++ ':' :: "text".data) with nullable := true } :=
  c4_nullable_equivalence "body".data "text".data (by decide) (by decide) (by decide)
    (by decide) (by decide) (by decide) (by decide)

theorem c9_references_mismatch_witness :
    validateFieldDefinition ("authorId".data ++ ':' :: ("references".data ++ "user".data))
      = Except.ok () ∧
    parseFieldToken ("authorId".data ++ ':' :: ("references".data ++ "user".data))
      = Field.mk "authorId".data ("references".data ++ "user".data) false false none none
          false false :=
  c9_references_mismatch "authorId".data "user".data (by decide) (by decide) (by decide)
    (by decide) (by decide) (by decide) (by decide) (by decide)

theorem c10_bare_unique_witness :
    validateFieldDefinition ("nick".data ++ ':' :: "unique".data) = Except.ok () ∧
    parseFieldToken ("nick".data ++ ':' :: "unique".data)
      = Field.mk "nick".data "unique".data false false none none false true ∧
    drizzleType (parseFieldToken ("nick".data ++ ':' :: "unique".data)) Dialect.sqlite
      = "text".data :=
  ⟨(c10_bare_unique "nick".data (by decide) (by decide)).1 (by decide) (by decide),
   (c10_bare_unique "nick".data (by decide) (by decide)).2.1,
   (c10_bare_unique "nick".data (by decide) (by decide)).2.2.1 Dialect.sqlite⟩

/-! ## C1: the lightweight existence check versus the scan -/

theorem dropLit_suffix : ∀ {l s r : List Char}, dropLit l s = some r → r <:+ s := by
  intro l
  induction l with
  | nil =>
    intro s r h
    rw [dropLit] at h
    cases h
    exact List.suffix_rfl
  | cons c l ih =>
    intro s r h
    cases s with
    | nil => exact absurd h (by rw [dropLit]; exact Option.noConfusion)
    | cons d s' =>
      rw [dropLit] at h
      by_cases hcd : c = d
      · rw [if_pos hcd] at h
        exact (ih h).trans (List.suffix_cons d s')
      · rw [if_neg hcd] at h
        exact Option.noConfusion h

theorem dropWhile_suffix (p : Char → Bool) : ∀ s : List Char, s.dropWhile p <:+ s := by
  intro s
  induction s with
  | nil => exact List.suffix_rfl
  | cons c s' ih =>
    rw [List.dropWhile]
    split
    · exact ih.trans (List.suffix_cons c s')
    · exact List.suffix_rfl

theorem dropSp_suffix (s : List Char) : dropSp s <:+ s := dropWhile_suffix isJsSpace s

theorem dropSp1_suffix {s r : List Char} (h : dropSp1 s = some r) : r <:+ s := by
  cases s with
  | nil => exact absurd h (by rw [dropSp1]; exact Option.noConfusion)
  | cons c s' =>
    rw [dropSp1] at h
    split at h
    · cases h
      exact (dropWhile_suffix isJsSpace s').trans (List.suffix_cons c s')
    · exact Option.noConfusion h

theorem dropWord1_suffix {s r : List Char} (h : dropWord1 s = some r) : r <:+ s := by
  cases s with
  | nil => exact absurd h (by rw [dropWord1]; exact Option.noConfusion)
  | cons c s' =>
    rw [dropWord1] at h
    split at h
    · cases h
      exact (dropWhile_suffix isWordChar s').trans (List.suffix_cons c s')
    · exact Option.noConfusion h

theorem dropQuote_some {s r : List Char} (h : dropQuote s = some r) :
    ∃ c, s = c :: r ∧ isQuote c = true := by
  cases s with
  | nil => exact absurd h (by rw [dropQuote]; exact Option.noConfusion)
  | cons c s' =>
    rw [dropQuote] at h
    split at h
    · cases h
      exact ⟨c, rfl, by assumption⟩
    · exact Option.noConfusion h

theorem matchTF_suffix {s r : List Char} (h : matchTF s = some r) : r <:+ s := by
  rw [matchTF] at h
  rcases h1 : dropLit "sqliteTable".data s with _ | r1
  · rw [h1] at h
    rcases h2 : dropLit "pgTable".data s with _ | r2
    · rw [h2] at h
      exact dropLit_suffix h
    · rw [h2] at h
      cases h
      exact dropLit_suffix h2
  · rw [h1] at h
    cases h
    exact dropLit_suffix h1

theorem headerMatch_core {tn line : List Char} (h : headerMatch tn line = true) :
    ∃ r, r <:+ line ∧ (matchCoreP tn r).isSome = true := by
  rw [headerMatch] at h
  obtain ⟨v, hv⟩ := Option.isSome_iff_exists.mp h
  rcases Option.bind_eq_some.mp hv with ⟨s1, hs1, hv⟩
  rcases Option.bind_eq_some.mp hv with ⟨s2, hs2, hv⟩
  rcases Option.bind_eq_some.mp hv with ⟨s3, hs3, hv⟩
  rcases Option.bind_eq_some.mp hv with ⟨s4, hs4, hv⟩
  rcases Option.bind_eq_some.mp hv with ⟨s5, hs5, hv⟩
  rcases Option.bind_eq_some.mp hv with ⟨s6, hs6, hv⟩
  refine ⟨dropSp s6, ?_, by rw [hv]; rfl⟩
  have k6 : dropSp s6 <:+ s6 := dropSp_suffix s6
  have k5 : s6 <:+ s5 := (dropLit_suffix hs6).trans (dropSp_suffix s5)
  have k4 : s5 <:+ s4 := dropWord1_suffix hs5
  have k3 : s4 <:+ s3 := dropSp1_suffix hs4
  have k2 : s3 <:+ s2 := dropLit_suffix hs3
  have k1 : s2 <:+ s1 := dropSp1_suffix hs2
  have k0 : s1 <:+ line := dropLit_suffix hs1
  exact k6.trans (k5.trans (k4.trans (k3.trans (k2.trans (k1.trans k0)))))

theorem dropLit_ext {l s r : List Char} (h : dropLit l s = some r) :
    ∀ t, dropLit l (s ++ t) = some (r ++ t) := by
  induction l generalizing s with
  | nil =>
    rw [dropLit] at h
    cases h
    intro t
    rfl
  | cons c l ih =>
    cases s with
    | nil => exact absurd h (by rw [dropLit]; exact Option.noConfusion)
    | cons d s' =>
      rw [dropLit] at h
      by_cases hcd : c = d
      · rw [if_pos hcd] at h
        intro t
        rw [List.cons_append, dropLit, if_pos hcd]
        exact ih h t
      · rw [if_neg hcd] at h
        exact Option.noConfusion h

theorem dropLit_some_cons {c : Char} {l s r : List Char}
    (h : dropLit (c :: l) s = some r) : ∃ s', s = c :: s' := by
  cases s with
  | nil => exact absurd h (by rw [dropLit]; exact Option.noConfusion)
  | cons d s' =>
    rw [dropLit] at h
    by_cases hcd : c = d
    · exact ⟨s', by rw [hcd]⟩
    · rw [if_neg hcd] at h
      exact Option.noConfusion h

theorem matchTF_ext {s r : List Char} (h : matchTF s = some r) :
    ∀ t, matchTF (s ++ t) = some (r ++ t) := by
  intro t
  rw [matchTF] at h
  rw [matchTF]
  rcases h1 : dropLit "sqliteTable".data s with _ | r1
  · rw [h1] at h
    rcases h2 : dropLit "pgTable".data s with _ | r2
    · rw [h2] at h
      obtain ⟨s', rfl⟩ := dropLit_some_cons h
      have e1 : dropLit "sqliteTable".data (('m' :: s') ++ t) = none := by
        rw [List.cons_append]
        rw [show ("sqliteTable".data : List Char) = 's' :: "qliteTable".data from rfl]
        rw [dropLit, if_neg (by decide)]
      have e2 : dropLit "pgTable".data (('m' :: s') ++ t) = none := by
        rw [List.cons_append]
        rw [show ("pgTable".data : List Char) = 'p' :: "gTable".data from rfl]
        rw [dropLit, if_neg (by decide)]
      rw [e1, e2]
      exact dropLit_ext h t
    · rw [h2] at h
      cases h
      obtain ⟨s', rfl⟩ := dropLit_some_cons h2
      have e1 : dropLit "sqliteTable".data (('p' :: s') ++ t) = none := by
        rw [List.cons_append]
        rw [show ("sqliteTable".data : List Char) = 's' :: "qliteTable".data from rfl]
        rw [dropLit, if_neg (by decide)]
      rw [e1]
      rw [dropLit_ext h2 t]
  · rw [h1] at h
    cases h
    rw [dropLit_ext h1 t]

theorem dropWhile_append_ne_nil {p : Char → Bool} {s : List Char}
    (h : s.dropWhile p ≠ []) (t : List Char) :
    (s ++ t).dropWhile p = s.dropWhile p ++ t := by
  induction s with
  | nil => exact absurd rfl h
  | cons c s' ih =>
    rw [List.dropWhile_cons] at h
    rw [List.cons_append, List.dropWhile_cons, List.dropWhile_cons]
    by_cases hp : p c = true
    · rw [if_pos hp] at h
      rw [if_pos hp, if_pos hp]
      exact ih h
    · rw [if_neg hp, if_neg hp, List.cons_append]

theorem matchCoreP_ext {tn s r : List Char} (h : matchCoreP tn s = some r) :
    ∀ t, matchCoreP tn (s ++ t) = some (r ++ t) := by
  intro t
  rw [matchCoreP] at h
  rcases Option.bind_eq_some.mp h with ⟨s1, hs1, h⟩
  rcases Option.bind_eq_some.mp h with ⟨s2, hs2, h⟩
  rcases Option.bind_eq_some.mp h with ⟨s3, hs3, h⟩
  rcases Option.bind_eq_some.mp h with ⟨s4, hs4, h⟩
  have hsp1 : dropSp s1 ≠ [] := by
    intro hz
    rw [hz] at hs2
    exact Option.noConfusion hs2
  have hsp2 : dropSp s2 ≠ [] := by
    intro hz
    rw [hz] at hs3
    exact Option.noConfusion hs3
  rw [matchCoreP]
  rw [matchTF_ext hs1 t]
  rw [Option.some_bind]
  rw [show dropSp (s1 ++ t) = dropSp s1 ++ t from dropWhile_append_ne_nil hsp1 t]
  rw [dropLit_ext hs2 t, Option.some_bind]
  rw [show dropSp (s2 ++ t) = dropSp s2 ++ t from dropWhile_append_ne_nil hsp2 t]
  obtain ⟨c, hc, hcq⟩ := dropQuote_some hs3
  rw [hc, List.cons_append, dropQuote, if_pos hcq, Option.some_bind]
  rw [dropLit_ext hs4 t, Option.some_bind]
  obtain ⟨c2, hc2, hcq2⟩ := dropQuote_some h
  rw [hc2, List.cons_append, dropQuote, if_pos hcq2]

theorem existsCore_append {tn u : List Char} (h : (matchCoreP tn u).isSome = true) :
    ∀ pre, existsCore tn (pre ++ u) = true := by
  intro pre
  induction pre with
  | nil =>
    rw [List.nil_append]
    cases u with
    | nil => rw [existsCore]; exact h
    | cons c rest =>
      rw [existsCore, h]
      rfl
  | cons p pre' ih =>
    rw [List.cons_append, existsCore, ih]
    exact Bool.or_true _

theorem findStart_mem {tn : List Char} :
    ∀ {ls : List (List Char)} {s : Nat}, findStart tn ls = some s →
      ∃ l ∈ ls, headerMatch tn l = true := by
  intro ls
  induction ls with
  | nil => intro s h; exact Option.noConfusion h
  | cons l ls' ih =>
    intro s h
    rw [findStart] at h
    split at h
    · exact ⟨l, List.mem_cons_self _ _, by assumption⟩
    · rcases Option.map_eq_some'.mp h with ⟨s', hs', _⟩
      obtain ⟨l2, hm, hh⟩ := ih hs'
      exact ⟨l2, List.mem_cons_of_mem _ hm, hh⟩

theorem splitCh_ne_nil (sep : Char) (s : List Char) : splitCh sep s ≠ [] := by
  cases s with
  | nil => rw [splitCh]; exact List.cons_ne_nil _ _
  | cons c rest =>
    rw [splitCh]
    split
    · exact List.cons_ne_nil _ _
    · split
      · exact List.cons_ne_nil _ _
      · exact List.cons_ne_nil _ _

theorem splitCh_head {sep : Char} :
    ∀ {s l0 : List Char} {ls : List (List Char)}, splitCh sep s = l0 :: ls →
      ∃ post, s = l0 ++ post := by
  intro s
  induction s with
  | nil =>
    intro l0 ls h
    rw [splitCh] at h
    cases h
    exact ⟨[], rfl⟩
  | cons c rest ih =>
    intro l0 ls h
    rw [splitCh] at h
    split at h
    · cases h
      exact ⟨c :: rest, rfl⟩
    · rcases hs : splitCh sep rest with _ | ⟨m, ms⟩
      · exact absurd hs (splitCh_ne_nil sep rest)
      · rw [hs] at h
        cases h
        obtain ⟨post, hp⟩ := ih hs
        exact ⟨post, by rw [List.cons_append, ← hp]⟩

theorem splitCh_infix {sep : Char} :
    ∀ {s : List Char} {l : List Char}, l ∈ splitCh sep s →
      ∃ pre post, s = pre ++ l ++ post := by
  intro s
  induction s with
  | nil =>
    intro l hl
    rw [splitCh] at hl
    rcases List.mem_singleton.mp hl with rfl
    exact ⟨[], [], rfl⟩
  | cons c rest ih =>
    intro l hl
    rw [splitCh] at hl
    split at hl
    · rcases List.mem_cons.mp hl with rfl | hl
      · exact ⟨[], c :: rest, rfl⟩
      · obtain ⟨pre, post, hp⟩ := ih hl
        exact ⟨c :: pre, post, by rw [hp]; rfl⟩
    · rcases hs : splitCh sep rest with _ | ⟨m, ms⟩
      · exact absurd hs (splitCh_ne_nil sep rest)
      · rw [hs] at hl
        rcases List.mem_cons.mp hl with rfl | hl
        · obtain ⟨post, hp⟩ := splitCh_head hs
          exact ⟨[], post, by rw [hp]; rfl⟩
        · obtain ⟨pre, post, hp⟩ := ih (hs ▸ List.mem_cons_of_mem m hl)
          exact ⟨c :: pre, post, by rw [hp]; rfl⟩

/-- C1 (amended): whenever the line-by-line state machine of
`removeModelFromSchemaContent` reaches its Found state for a table name, the
lightweight regex check `modelExistsInSchema` reports true on the same
content; the converse fails (see the counterexample), so the agreement is
one-directional. -/
theorem c1_found_implies_exists (content tableName : List Char) (s e : Nat)
    (h : findBlock tableName (splitCh '\n' content) = some (s, e)) :
    modelExistsInSchema content tableName = true := by
  rw [findBlock] at h
  rcases Option.bind_eq_some.mp h with ⟨s0, hs0, _⟩
  obtain ⟨line, hmem, hhm⟩ := findStart_mem hs0
  obtain ⟨pre, post, hcontent⟩ := splitCh_infix hmem
  obtain ⟨r, hsuf, hcore⟩ := headerMatch_core hhm
  obtain ⟨q, hq⟩ := hsuf
  obtain ⟨v, hv⟩ := Option.isSome_iff_exists.mp hcore
  have hext : matchCoreP tableName (r ++ post) = some (v ++ post) := matchCoreP_ext hv post
  rw [modelExistsInSchema]
  have : content = (pre ++ q) ++ (r ++ post) := by
    rw [hcontent, ← hq]
    simp [List.append_assoc]
  rw [this]
  exact existsCore_append (by rw [hext]; rfl) (pre ++ q)

theorem c1_found_implies_exists_witness :
    modelExistsInSchema
      "export const posts = sqliteTable(\x22posts\x22, \x7b\x7d);\nkeep".data
      "posts".data = true :=
  c1_found_implies_exists
    "export const posts = sqliteTable(\x22posts\x22, \x7b\x7d);\nkeep".data
    "posts".data 0 0 (by decide)

/-! ## C2: the frame property of block removal -/

theorem splitCh_not_mem {sep : Char} :
    ∀ {s l : List Char}, l ∈ splitCh sep s → sep ∉ l := by
  intro s
  induction s with
  | nil =>
    intro l hl
    rw [splitCh] at hl
    rcases List.mem_singleton.mp hl with rfl
    exact List.not_mem_nil sep
  | cons c rest ih =>
    intro l hl
    rw [splitCh] at hl
    split at hl
    · rcases List.mem_cons.mp hl with rfl | hl
      · exact List.not_mem_nil sep
      · exact ih hl
    · rename_i hc
      rcases hs : splitCh sep rest with _ | ⟨m, ms⟩
      · exact absurd hs (splitCh_ne_nil sep rest)
      · rw [hs] at hl
        rcases List.mem_cons.mp hl with rfl | hl
        · intro hmem
          rcases List.mem_cons.mp hmem with rfl | hmem
          · exact hc rfl
          · exact ih (hs ▸ List.mem_cons_self m ms) hmem
        · exact ih (hs ▸ List.mem_cons_of_mem m hl)

theorem joinNl_cons : ∀ (ls : List (List Char)) (l : List Char),
    joinNl (l :: ls) = l ++ joinTail ls := by
  intro ls
  induction ls with
  | nil => intro l; rw [joinNl, joinTail, List.append_nil]
  | cons l2 ls2 ih =>
    intro l
    rw [joinNl, joinTail, ih l2]

theorem joinTail_blanks : ∀ (k : Nat) (r : List (List Char)),
    joinTail (List.replicate k [] ++ r) = List.replicate k '\n' ++ joinTail r := by
  intro k
  induction k with
  | zero => intro r; rw [List.replicate, List.nil_append, List.replicate, List.nil_append]
  | succ k ih =>
    intro r
    rw [List.replicate_succ, List.cons_append, joinTail, List.nil_append, ih,
      List.replicate_succ, List.cons_append]

theorem joinNl_blanks : ∀ (k : Nat), 1 ≤ k →
    joinNl (List.replicate k []) = List.replicate (k - 1) '\n' := by
  intro k hk
  cases k with
  | zero => exact absurd hk (by omega)
  | succ k =>
    rw [List.replicate_succ, joinNl_cons, List.nil_append]
    rw [show joinTail (List.replicate k []) = List.replicate k '\n' from by
      rw [show (List.replicate k [] : List (List Char))
          = List.replicate k [] ++ [] from (List.append_nil _).symm, joinTail_blanks,
        joinTail, List.append_nil]]
    rfl

theorem repl_cons_nl (n : Nat) (Y : List Char) :
    List.replicate n '\n' ++ '\n' :: Y = List.replicate (n + 1) '\n' ++ Y := by
  rw [List.replicate_succ']
  rw [List.append_assoc]
  rfl

theorem joinNl_blank_run : ∀ (k : Nat) (l : List Char) (r : List (List Char)),
    joinNl (List.replicate k [] ++ l :: r)
      = List.replicate k '\n' ++ (l ++ joinTail r) := by
  intro k
  induction k with
  | zero =>
    intro l r
    rw [List.replicate, List.nil_append, List.replicate, List.nil_append, joinNl_cons]
  | succ k ih =>
    intro l r
    rw [List.replicate_succ, List.cons_append, joinNl_cons, List.nil_append,
      joinTail_blanks, joinTail, ← repl_cons_nl]

theorem collapseGo_nl_run : ∀ (m j : Nat) (s : List Char),
    collapseGo j (List.replicate m '\n' ++ s) = collapseGo (j + m) s := by
  intro m
  induction m with
  | zero => intro j s; rw [List.replicate, List.nil_append]; rfl
  | succ m ih =>
    intro j s
    rw [List.replicate_succ, List.cons_append, collapseGo, if_pos rfl, ih]
    rw [show j + 1 + m = j + (m + 1) from by omega]


theorem collapseGo_cons {c : Char} (h : ¬c = '\n') (k : Nat) (t : List Char) :
    collapseGo k (c :: t)
      = List.replicate (min k 2) '\n' ++ c :: collapseGo 0 t := by
  rw [collapseGo, if_neg h]

theorem collapseGo_line : ∀ {l : List Char}, '\n' ∉ l →
    ∀ t, collapseGo 0 (l ++ t) = l ++ collapseGo 0 t := by
  intro l
  induction l with
  | nil => intro _ t; rw [List.nil_append, List.nil_append]
  | cons c l' ih =>
    intro hl t
    have hc : ¬c = '\n' := fun hcc => hl (hcc ▸ List.mem_cons_self c l')
    rw [List.cons_append, collapseGo_cons hc, ih (fun hm => hl (List.mem_cons_of_mem c hm)) t]
    rfl

theorem collapse_joinTail : ∀ (rest : List (List Char)),
    (∀ l ∈ rest, '\n' ∉ l) →
    ∀ k, collapseGo k (joinTail rest) = joinTail (cblTailGo k rest) := by
  intro rest
  induction rest with
  | nil =>
    intro _ k
    rw [joinTail, collapseGo, cblTailGo]
    rw [show (List.replicate (min k 2) [] : List (List Char))
        = List.replicate (min k 2) [] ++ [] from (List.append_nil _).symm,
      joinTail_blanks, joinTail, List.append_nil]
  | cons l rest' ih =>
    intro hnl k
    have hnl' : ∀ l2 ∈ rest', '\n' ∉ l2 := fun l2 h => hnl l2 (List.mem_cons_of_mem l h)
    by_cases hl : l = []
    · subst hl
      rw [joinTail, List.nil_append, collapseGo, if_pos rfl, cblTailGo, if_pos rfl]
      exact ih hnl' (k + 1)
    · obtain ⟨c, l'', rfl⟩ := List.exists_cons_of_ne_nil hl
      have hmem : '\n' ∉ c :: l'' := hnl _ (List.mem_cons_self _ _)
      have hc : ¬c = '\n' := fun hcc => hmem (hcc ▸ List.mem_cons_self c l'')
      have hl'' : '\n' ∉ l'' := fun hm => hmem (List.mem_cons_of_mem c hm)
      rw [joinTail, collapseGo, if_pos rfl, List.cons_append,
        collapseGo_cons hc, collapseGo_line hl'', ih hnl' 0]
      rw [cblTailGo, if_neg hl, joinTail_blanks, joinTail, repl_cons_nl]
      rw [show min (k + 1) 2 = min k 1 + 1 from by omega]
      rfl

theorem collapse_join : ∀ (ls : List (List Char)),
    (∀ l ∈ ls, '\n' ∉ l) →
    ∀ k, k = 0 ∨ ls ≠ [] → collapseGo k (joinNl ls) = joinNl (cblGo k ls) := by
  intro ls
  induction ls with
  | nil =>
    intro _ k hk
    rcases hk with rfl | hk
    · rfl
    · exact absurd rfl hk
  | cons l ls' ih =>
    intro hnl k _
    have hnl' : ∀ l2 ∈ ls', '\n' ∉ l2 := fun l2 h => hnl l2 (List.mem_cons_of_mem l h)
    by_cases hl : l = []
    · subst hl
      rw [joinNl_cons, List.nil_append, cblGo, if_pos rfl]
      cases ls' with
      | nil =>
        rw [joinTail, collapseGo, cblGo, if_neg (by omega),
          joinNl_blanks (min (k + 1) 3) (by omega)]
        rw [show min k 2 = min (k + 1) 3 - 1 from by omega]
      | cons l2 ls'' =>
        rw [joinTail, ← joinNl_cons, collapseGo, if_pos rfl]
        exact ih hnl' (k + 1) (Or.inr (List.cons_ne_nil _ _))
    · obtain ⟨c, l'', rfl⟩ := List.exists_cons_of_ne_nil hl
      have hmem : '\n' ∉ c :: l'' := hnl _ (List.mem_cons_self _ _)
      have hc : ¬c = '\n' := fun hcc => hmem (hcc ▸ List.mem_cons_self c l'')
      have hl'' : '\n' ∉ l'' := fun hm => hmem (List.mem_cons_of_mem c hm)
      rw [joinNl_cons, List.cons_append, collapseGo_cons hc, collapseGo_line hl'',
        collapse_joinTail ls' hnl' 0]
      rw [cblGo, if_neg hl, joinNl_blank_run]
      rfl

/-- C2 (amended): when the scan locates the block for a table name at lines
`[s, e]`, the removal output is exactly the input's line sequence with lines
`s` through `e` deleted, re-joined after collapsing blank-line runs: every
maximal run of three or more newline characters becomes exactly two (one
blank line); in line terms an interior run of two or more blank lines
becomes one blank line (not only runs of three or more, see the
counterexample), and a leading or trailing run of `k` blanks keeps
`min k 2`.  All other lines are unchanged and keep their order. -/
theorem c2_removal_frame (content tableName : List Char) (s e : Nat)
    (h : findBlock tableName (splitCh '\n' content) = some (s, e)) :
    removeModelFromSchemaContent content tableName
      = joinNl (collapseBlankLines
          ((splitCh '\n' content).take s ++ (splitCh '\n' content).drop (e + 1))) := by
  have hnl : ∀ l ∈ (splitCh '\n' content).take s ++ (splitCh '\n' content).drop (e + 1),
      '\n' ∉ l := by
    intro l hl
    rcases List.mem_append.mp hl with hl | hl
    · exact splitCh_not_mem (List.take_subset _ _ hl)
    · exact splitCh_not_mem (List.drop_subset _ _ hl)
  unfold removeModelFromSchemaContent
  simp only []
  rw [h]
  exact collapse_join _ hnl 0 (Or.inl rfl)

theorem c2_removal_frame_witness :
    findBlock "posts".data
      (splitCh '\n'
        "a\n\nexport const posts = sqliteTable(\x22posts\x22, \x7b\x7d);\n\n\n\nb".data)
      = some (2, 2) ∧
    removeModelFromSchemaContent
      "a\n\nexport const posts = sqliteTable(\x22posts\x22, \x7b\x7d);\n\n\n\nb".data
      "posts".data
      = joinNl (collapseBlankLines
          ((splitCh '\n'
            "a\n\nexport const posts = sqliteTable(\x22posts\x22, \x7b\x7d);\n\n\n\nb".data).take 2
           ++
           (splitCh '\n'
            "a\n\nexport const posts = sqliteTable(\x22posts\x22, \x7b\x7d);\n\n\n\nb".data).drop 3)) :=
  ⟨by decide,
   c2_removal_frame
     "a\n\nexport const posts = sqliteTable(\x22posts\x22, \x7b\x7d);\n\n\n\nb".data
     "posts".data 2 2 (by decide)⟩

end Brizzle
